import Mathlib

/-!
Shallow embedding of `perceptron.py`: a multi-class averaged perceptron with
lazy weight averaging and a minimum-update threshold.  Machine floats are
modelled by exact rationals; numpy vectors by lists; the feature dictionary by
an insertion-ordered association list; Python exceptions by `Except`.
-/

namespace Tupa

/-- Zero vector of length `n`, as `np.zeros(n)`. -/
def zeros (n : Nat) : List ℚ := List.replicate n 0

/-- `xs[i] += v` on a dense vector (no-op out of range; the code never
indexes out of range because the grow-check runs first). -/
def addAt (xs : List ℚ) (i : Nat) (v : ℚ) : List ℚ := xs.set i (xs.getD i 0 + v)

/-- Per-feature state: the weights for one feature, for all labels
(`FeatureWeights.__init__` with `num_labels`).  A frozen instance built from a
pre-computed weight vector carries empty bookkeeping (the Python object simply
lacks those attributes, and no frozen code path reads them). -/
structure FeatureWeights where
  weights : List ℚ
  totals : List ℚ
  lastUpdate : List Nat
  update_count : Nat
deriving DecidableEq, Repr

namespace FeatureWeights

/-- `FeatureWeights(num_labels=n)`: zero vectors of length `n`. -/
def init (n : Nat) : FeatureWeights :=
  ⟨zeros n, zeros n, List.replicate n 0, 0⟩

/-- `FeatureWeights(weights=w)`: frozen, carries only the weight vector. -/
def ofWeights (w : List ℚ) : FeatureWeights := ⟨w, [], [], 0⟩

/-- `_update_totals(label, update_index)` for a single label:
`totals[label] += weights[label] * (update_index - last_update[label])`
then `last_update[label] = update_index`. -/
def updateTotals (fw : FeatureWeights) (label : Nat) (u : Nat) : FeatureWeights :=
  { fw with
    totals := fw.totals.set label
      (fw.totals.getD label 0 +
        fw.weights.getD label 0 * ((u : ℚ) - (fw.lastUpdate.getD label 0 : ℚ)))
    lastUpdate := fw.lastUpdate.set label u }

/-- `_update_totals(labels, update_index)` with a list of labels (numpy fancy
indexing).  For the distinct label lists the code passes, the sequential fold
agrees with the vectorized form; a duplicate's second pass is a no-op since
`last_update` already equals `update_index`. -/
def updateTotalsBatch (fw : FeatureWeights) (labels : List Nat) (u : Nat) : FeatureWeights :=
  labels.foldl (fun acc l => acc.updateTotals l u) fw

/-- `update(label, value, update_index)`: bump `update_count`, synchronize the
label's total lazily, then add `value` to the label's weight. -/
def update (fw : FeatureWeights) (label : Nat) (value : ℚ) (u : Nat) : FeatureWeights :=
  let fw1 := { fw with update_count := fw.update_count + 1 }
  let fw2 := fw1.updateTotals label u
  { fw2 with weights := addAt fw2.weights label value }

/-- `finalize(update_index, labels, average)`: force-synchronize the kept
labels, then keep `totals[l]/update_index` (averaged) or `weights[l]` (raw)
for each kept label, as a frozen instance. -/
def finalize (fw : FeatureWeights) (u : Nat) (labels : List Nat) (average : Bool) :
    FeatureWeights :=
  let fw1 := fw.updateTotalsBatch labels u
  ofWeights (if average then labels.map (fun l => fw1.totals.getD l 0 / (u : ℚ))
             else labels.map (fun l => fw1.weights.getD l 0))

/-- `resize(n)` via `ndarray.resize`: pad with zeros up to length `n`
(truncating if `n` is smaller; the perceptron only ever grows). -/
def resize (fw : FeatureWeights) (n : Nat) : FeatureWeights :=
  { fw with
    weights := fw.weights.takeD n 0
    totals := fw.totals.takeD n 0
    lastUpdate := fw.lastUpdate.takeD n 0 }

end FeatureWeights

/-- Python exceptions raised by `Perceptron.update` / `Perceptron.finalize`:
the `assert not self.is_frozen` failures, and the `ValueError` raised by
`zip(*[])` unpacking when no label was ever true. -/
inductive PError where
  | invalidState : PError
  | valueError : PError
deriving DecidableEq, Repr

/-- Association-list lookup for the feature dictionary (`dict.get`). -/
def findFW : List (String × FeatureWeights) → String → Option FeatureWeights
  | [], _ => none
  | (k, w) :: rest, f => if k = f then some w else findFW rest f

/-- Store a feature's weights, keeping dict insertion order: replace in place
when present, append when absent (`defaultdict` assignment). -/
def storeFW : List (String × FeatureWeights) → String → FeatureWeights →
    List (String × FeatureWeights)
  | [], f, w => [(f, w)]
  | (k, w0) :: rest, f, w => if k = f then (k, w) :: rest else (k, w0) :: storeFW rest f w

/-- The perceptron state.  A frozen instance in Python lacks `_min_update`,
`_update_index` and `_true_labels`; here they are carried but dead (no frozen
code path reads them), defaulted like a fresh `Perceptron()` so that
`load` into a fresh instance is field-wise faithful. -/
structure Perceptron where
  labels : List String
  weights : List (String × FeatureWeights)
  is_frozen : Bool
  label_indices : Option (List Nat)
  min_update : Nat
  update_index : Nat
  true_labels : List Bool
deriving DecidableEq, Repr

namespace Perceptron

/-- `Perceptron(labels, min_update)`: a fresh unfrozen instance. -/
def mk0 (labels : List String) (min_update : Nat) : Perceptron :=
  ⟨labels, [], false, none, min_update, 0, List.replicate labels.length false⟩

/-- `num_labels` property. -/
def num_labels (p : Perceptron) : Nat := p.labels.length

/-- `_update_num_labels`: when the label list has grown past the bookkeeping,
extend `_true_labels` with `False` and resize every stored FeatureWeights. -/
def updateNumLabels (p : Perceptron) : Perceptron :=
  if p.true_labels.length < p.num_labels then
    { p with
      true_labels := p.true_labels ++ List.replicate (p.num_labels - p.true_labels.length) false
      weights := p.weights.map (fun fw => (fw.1, fw.2.resize p.num_labels)) }
  else p

/-- One iteration of the score accumulation loop: skip zero values, missing
features, and (when unfrozen) features with `update_count < min_update`;
otherwise `scores += value * weights.weights`. -/
def scoreStep (p : Perceptron) (scores : List ℚ) (fv : String × ℚ) : List ℚ :=
  if fv.2 = 0 then scores
  else
    match findFW p.weights fv.1 with
    | none => scores
    | some w =>
      if p.is_frozen = false ∧ w.update_count < p.min_update then scores
      else List.zipWith (· + ·) scores (w.weights.map (fun x => fv.2 * x))

/-- The score accumulation loop over all features. -/
def scoreVec (p : Perceptron) (features : List (String × ℚ)) : List ℚ :=
  features.foldl p.scoreStep (zeros p.num_labels)

/-- `score(features)`: run the grow-check when unfrozen, accumulate the score
vector, and key the result by `enumerate` or through `label_indices`. -/
def score (p : Perceptron) (features : List (String × ℚ)) : List (Nat × ℚ) :=
  let p1 := if p.is_frozen then p else p.updateNumLabels
  let s := p1.scoreVec features
  match p1.label_indices with
  | none => s.enum
  | some idx => s.enum.map (fun iv => (idx.getD iv.1 0, iv.2))

/-- The per-feature body of `update`: fetch (or lazily create, sized to the
current label count) the FeatureWeights, then two `FeatureWeights.update`
calls at the same `update_index`. -/
def updateFeature (p : Perceptron) (pred t : Nat) (lr : ℚ)
    (ws : List (String × FeatureWeights)) (fv : String × ℚ) :
    List (String × FeatureWeights) :=
  if fv.2 = 0 then ws
  else
    let w := (findFW ws fv.1).getD (FeatureWeights.init p.num_labels)
    let w1 := w.update t (lr * fv.2) p.update_index
    let w2 := w1.update pred (-(lr * fv.2)) p.update_index
    storeFW ws fv.1 w2

/-- `update(features, pred, true, learning_rate)`: asserts unfrozen, bumps the
global `update_index`, runs the grow-check, marks the true label, then applies
the two weight adjustments per non-zero feature. -/
def update (p : Perceptron) (features : List (String × ℚ)) (pred t : Nat)
    (lr : ℚ) : Except PError Perceptron :=
  if p.is_frozen then .error .invalidState
  else
    let p1 := { p with update_index := p.update_index + 1 }
    let p2 := p1.updateNumLabels
    let p3 := { p2 with true_labels := p2.true_labels.set t true }
    .ok { p3 with weights := features.foldl (p3.updateFeature pred t lr) p3.weights }

/-- `finalize(average)`: asserts unfrozen, runs the grow-check, keeps the
labels ever marked true (raising `ValueError` from `zip(*[])` when none), and
builds a frozen perceptron from the features meeting `min_update`. -/
def finalize (p : Perceptron) (average : Bool) : Except PError Perceptron :=
  if p.is_frozen then .error .invalidState
  else
    let p1 := p.updateNumLabels
    let kept := (p1.true_labels.zip p1.labels).enum.filter (fun x => x.2.1)
    if kept = [] then .error .valueError
    else
      let labelIdx := kept.map (fun x => x.1)
      let keptLabels := kept.map (fun x => x.2.2)
      let ws := p1.weights.filterMap (fun fw =>
        if p1.min_update ≤ fw.2.update_count then
          some (fw.1, fw.2.finalize p1.update_index labelIdx average)
        else none)
      .ok ⟨keptLabels, ws, true, some labelIdx, 1, 0, []⟩

/-- The record written by `save`: `labels`, the weights dict, `is_frozen`, and
(unfrozen only) `_min_update`, `_update_index`, `_true_labels`.  Note that
`_label_indices` is not part of the record. -/
structure Saved where
  labels : List String
  weights : List (String × FeatureWeights)
  is_frozen : Bool
  extra : Option (Nat × Nat × List Bool)
deriving DecidableEq, Repr

/-- `save(filename, io)`: the record handed to the serializer. -/
def save (p : Perceptron) : Saved :=
  ⟨p.labels, p.weights, p.is_frozen,
    if p.is_frozen then none else some (p.min_update, p.update_index, p.true_labels)⟩

/-- `load(filename, io)` on a fresh `Perceptron()`: replaces `labels`,
`weights` and `is_frozen` wholesale and, when unfrozen, the three extra
fields; `_label_indices` keeps the fresh instance's `None`. -/
def loadFresh (d : Saved) : Perceptron :=
  match d.extra with
  | some e => ⟨d.labels, d.weights, d.is_frozen, none, e.1, e.2.1, e.2.2⟩
  | none => ⟨d.labels, d.weights, d.is_frozen, none, 1, 0, []⟩

end Perceptron

/-! ### Trace scaffolding, invariants and observations used to state claims -/

namespace FeatureWeights

/-- One perceptron-level update touches a feature with a batch of per-label
adjustments, all at the same `update_index`. -/
def applyBatch (fw : FeatureWeights) (b : List (Nat × ℚ)) (u : Nat) : FeatureWeights :=
  b.foldl (fun acc op => acc.update op.1 op.2 u) fw

/-- Run a list of batches, the `k`-th batch after step `u` at
`update_index = u + k`: the lazy scheme exactly as the code executes it. -/
def runBatches : FeatureWeights → List (List (Nat × ℚ)) → Nat → FeatureWeights
  | fw, [], _ => fw
  | fw, b :: bs, u => runBatches (fw.applyBatch b (u + 1)) bs (u + 1)

/-- Dimension bookkeeping: all three vectors have length `n`. -/
def Dims (fw : FeatureWeights) (n : Nat) : Prop :=
  fw.weights.length = n ∧ fw.totals.length = n ∧ fw.lastUpdate.length = n

instance (fw : FeatureWeights) (n : Nat) : Decidable (fw.Dims n) := by
  unfold Dims
  infer_instance

end FeatureWeights

/-- Modelled from the spec: eager per-step accumulation.  At every step the
weight vector held during that step (its value before the step's updates) is
added into the running totals for every label at once; the step's updates are
then applied to the weights. -/
def eagerRun : List ℚ × List ℚ → List (List (Nat × ℚ)) → List ℚ × List ℚ
  | s, [] => s
  | s, b :: bs =>
    eagerRun (b.foldl (fun w op => addAt w op.1 op.2) s.1, List.zipWith (· + ·) s.2 s.1) bs

/-- The lazy-synchronization invariant: the stored total plus the pending
contribution of the current weight since `lastUpdate` reconstructs the eager
total at step `k`, for every label. -/
def SyncInv (fw : FeatureWeights) (k : Nat) (tote : List ℚ) : Prop :=
  ∀ i, fw.totals.getD i 0 +
    fw.weights.getD i 0 * ((k : ℚ) - (fw.lastUpdate.getD i 0 : ℚ)) = tote.getD i 0

namespace Perceptron

/-- State consistency maintained by the constructor and the grow-check: all
bookkeeping vectors match the current label count. -/
def Consistent (p : Perceptron) : Prop :=
  p.true_labels.length = p.num_labels ∧
  ∀ fw ∈ p.weights, FeatureWeights.Dims fw.2 p.num_labels

instance (p : Perceptron) : Decidable p.Consistent := by
  unfold Consistent
  infer_instance

/-- The live weight of feature `f` for label `lab`, 0 when the feature is
absent (matching the defaultdict's zero initialization). -/
def wval (p : Perceptron) (f : String) (lab : Nat) : ℚ :=
  ((findFW p.weights f).map (fun w => w.weights.getD lab 0)).getD 0

/-- The `update_count` of feature `f`, 0 when the feature is absent. -/
def countOf (p : Perceptron) (f : String) : Nat :=
  ((findFW p.weights f).map (fun w => w.update_count)).getD 0

/-- Reference form of finalize's kept-label computation,
`[(i, (t, l)) for i, (t, l) in enumerate(zip(true_labels, labels)) if t]`. -/
def keptList : Nat → List Bool → List String → List (Nat × Bool × String)
  | _, [], _ => []
  | _, _ :: _, [] => []
  | k, b :: tl, s :: pl =>
    if b then (k, (b, s)) :: keptList (k + 1) tl pl else keptList (k + 1) tl pl

/-- The spec scenario's state after
`update({"f1": 1.0}, pred=0, true=1, learning_rate=1)` on labels `[A, B]`
with `min_update=1`. -/
def c2p : Perceptron :=
  (((mk0 ["A", "B"] 1).update [("f1", 1)] 0 1 1).toOption).getD (mk0 [] 1)

/-- The spec scenario's state after the second call
`update({"f1": 1.0}, pred=1, true=1)`. -/
def c2p2 : Perceptron := ((c2p.update [("f1", 1)] 1 1 1).toOption).getD (mk0 [] 1)

/-- A finalized model whose `label_indices` is not the identity (label 0 was
never true, so finalize keeps only original position 1). -/
def c4fz : Perceptron := ((c2p.finalize true).toOption).getD (mk0 [] 1)

/-- A below-threshold state: one update with `min_update = 3` leaves feature
`f1` with `update_count = 2 < 3`. -/
def c8p : Perceptron :=
  (((mk0 ["A", "B"] 3).update [("f1", 1)] 0 1 1).toOption).getD (mk0 [] 1)

end Perceptron

instance : DecidableEq (Except PError Perceptron) := fun x y =>
  match x, y with
  | .error a, .error b =>
    if h : a = b then isTrue (by rw [h]) else isFalse (fun he => h (by injection he))
  | .ok a, .ok b =>
    if h : a = b then isTrue (by rw [h]) else isFalse (fun he => h (by injection he))
  | .error _, .ok _ => isFalse (fun he => Except.noConfusion he)
  | .ok _, .error _ => isFalse (fun he => Except.noConfusion he)

/-! ### Basic vector lemmas -/

theorem getD_set_self (l : List α) (i : Nat) (v d : α) :
    (l.set i v).getD i d = if i < l.length then v else d := by
  rw [List.getD_eq_getElem?_getD, List.getElem?_set, if_pos rfl]
  split <;> simp

theorem getD_set_ne (l : List α) {i j : Nat} (h : i ≠ j) (v d : α) :
    (l.set i v).getD j d = l.getD j d := by
  rw [List.getD_eq_getElem?_getD, List.getElem?_set_ne h, ← List.getD_eq_getElem?_getD]

theorem set_getD (l : List α) (i : Nat) (d : α) : l.set i (l.getD i d) = l := by
  induction l generalizing i with
  | nil => rfl
  | cons a t ih =>
    cases i with
    | zero => rfl
    | succ m => simpa [List.set, List.getD] using ih m

theorem zeros_getD (n i : Nat) : (zeros n).getD i 0 = 0 := by
  rw [zeros, List.getD_eq_getElem?_getD, List.getElem?_replicate]
  split <;> rfl

theorem zeros_length (n : Nat) : (zeros n).length = n := List.length_replicate n 0

theorem length_addAt (xs : List ℚ) (i : Nat) (v : ℚ) : (addAt xs i v).length = xs.length :=
  List.length_set xs i _

theorem addAt_cancel (xs : List ℚ) (i : Nat) (v : ℚ) : addAt (addAt xs i v) i (-v) = xs := by
  unfold addAt
  rw [getD_set_self, List.set_set]
  split
  case isTrue h => rw [add_neg_cancel_right, set_getD]
  case isFalse h => rw [List.set_eq_of_length_le (Nat.le_of_not_lt h)]

theorem getD_addAt_self (xs : List ℚ) (i : Nat) (v : ℚ) (h : i < xs.length) :
    (addAt xs i v).getD i 0 = xs.getD i 0 + v := by
  rw [addAt, getD_set_self, if_pos h]

theorem getD_addAt_ne (xs : List ℚ) {i j : Nat} (h : i ≠ j) (v : ℚ) :
    (addAt xs i v).getD j 0 = xs.getD j 0 := getD_set_ne xs h _ _

theorem getD_zipWith_add (a b : List ℚ) (h : a.length = b.length) (i : Nat) :
    (List.zipWith (· + ·) a b).getD i 0 = a.getD i 0 + b.getD i 0 := by
  rw [List.getD_eq_getElem?_getD, List.getD_eq_getElem?_getD, List.getD_eq_getElem?_getD,
    List.getElem?_zipWith]
  rcases Nat.lt_or_ge i a.length with hi | hi
  · rw [List.getElem?_eq_getElem hi, List.getElem?_eq_getElem (h ▸ hi)]
    rfl
  · rw [List.getElem?_eq_none hi, List.getElem?_eq_none (h ▸ hi)]
    simp

theorem length_zipWith_add (a b : List ℚ) (h : a.length = b.length) :
    (List.zipWith (· + ·) a b).length = a.length := by
  rw [List.length_zipWith, h, Nat.min_self]

theorem takeD_append (l : List α) (n : Nat) (d : α) (h : l.length ≤ n) :
    List.takeD n l d = l ++ List.replicate (n - l.length) d := by
  induction l generalizing n with
  | nil => simp
  | cons a t ih =>
    cases n with
    | zero => exact absurd h (by simp)
    | succ m =>
      simp only [List.takeD_succ, List.head?_cons, Option.getD_some, List.tail_cons,
        List.cons_append, List.length_cons]
      rw [ih m (Nat.le_of_succ_le_succ h), Nat.succ_sub_succ]

theorem getD_of_len_le (l : List α) {i : Nat} (h : l.length ≤ i) (d : α) : l.getD i d = d := by
  rw [List.getD_eq_getElem?_getD, List.getElem?_eq_none h]
  rfl

theorem getD_replicate_self (n i : Nat) (a : α) : (List.replicate n a).getD i a = a := by
  rw [List.getD_eq_getElem?_getD, List.getElem?_replicate]
  split <;> rfl

/-! ### FeatureWeights lemmas: the lazy synchronization invariant -/

namespace FeatureWeights

theorem update_weights (fw : FeatureWeights) (l : Nat) (v : ℚ) (u : Nat) :
    (fw.update l v u).weights = addAt fw.weights l v := rfl

theorem update_update_count (fw : FeatureWeights) (l : Nat) (v : ℚ) (u : Nat) :
    (fw.update l v u).update_count = fw.update_count + 1 := rfl

theorem updateTotals_weights (fw : FeatureWeights) (l u : Nat) :
    (fw.updateTotals l u).weights = fw.weights := rfl

theorem dims_updateTotals {fw : FeatureWeights} {n : Nat} (h : fw.Dims n) (l u : Nat) :
    (fw.updateTotals l u).Dims n := by
  obtain ⟨h1, h2, h3⟩ := h
  exact ⟨h1, by simpa [updateTotals] using h2, by simpa [updateTotals] using h3⟩

theorem dims_update {fw : FeatureWeights} {n : Nat} (h : fw.Dims n) (l : Nat) (v : ℚ) (u : Nat) :
    (fw.update l v u).Dims n := by
  obtain ⟨h1, h2, h3⟩ := dims_updateTotals h l u
  exact ⟨by simpa [update, updateTotals, length_addAt] using h1,
    by simpa [update, updateTotals] using h2, by simpa [update, updateTotals] using h3⟩

theorem syncInv_updateTotals {fw : FeatureWeights} {n k : Nat} {tote : List ℚ}
    (hd : fw.Dims n) (h : SyncInv fw k tote) (l : Nat) :
    SyncInv (fw.updateTotals l k) k tote := by
  intro i
  obtain ⟨hw, ht, hl⟩ := hd
  by_cases hil : l = i
  · subst hil
    by_cases hlt : l < n
    · simp only [updateTotals, updateTotals_weights]
      rw [getD_set_self, getD_set_self, if_pos (ht ▸ hlt), if_pos (hl ▸ hlt)]
      have := h l
      ring_nf
      linarith
    · have hle : n ≤ l := Nat.le_of_not_lt hlt
      simp only [updateTotals]
      rw [List.set_eq_of_length_le (ht ▸ hle), List.set_eq_of_length_le (hl ▸ hle)]
      exact h l
  · simp only [updateTotals]
    rw [getD_set_ne _ hil, getD_set_ne _ hil]
    exact h i

theorem syncInv_update {fw : FeatureWeights} {n k : Nat} {tote : List ℚ}
    (hd : fw.Dims n) (h : SyncInv fw k tote) (l : Nat) (v : ℚ) :
    SyncInv (fw.update l v k) k tote := by
  have h1 : SyncInv (fw.updateTotals l k) k tote :=
    @syncInv_updateTotals _ n _ _ ⟨hd.1, hd.2.1, hd.2.2⟩ h l
  have hd1 : (fw.updateTotals l k).Dims n := dims_updateTotals hd l k
  intro i
  show (fw.updateTotals l k).totals.getD i 0 +
    (addAt (fw.updateTotals l k).weights l v).getD i 0 *
      ((k : ℚ) - ((fw.updateTotals l k).lastUpdate.getD i 0 : ℚ)) = tote.getD i 0
  by_cases hil : l = i
  · subst hil
    by_cases hlt : l < n
    · have hlast : (fw.updateTotals l k).lastUpdate.getD l 0 = k := by
        simp only [updateTotals]
        rw [getD_set_self, if_pos (hd.2.2 ▸ hlt)]
      rw [hlast]
      have h1l := h1 l
      rw [hlast] at h1l
      ring_nf at h1l ⊢
      linarith
    · have hle : n ≤ l := Nat.le_of_not_lt hlt
      rw [addAt, List.set_eq_of_length_le (by rw [hd1.1]; exact hle)]
      exact h1 l
  · rw [getD_addAt_ne _ hil]
    exact h1 i

theorem dims_applyBatch {n : Nat} (b : List (Nat × ℚ)) (u : Nat) :
    ∀ fw : FeatureWeights, fw.Dims n → (fw.applyBatch b u).Dims n := by
  induction b with
  | nil => exact fun fw h => h
  | cons op rest ih =>
    intro fw h
    exact ih _ (dims_update h op.1 op.2 u)

theorem syncInv_applyBatch {n k : Nat} {tote : List ℚ} (b : List (Nat × ℚ)) :
    ∀ fw : FeatureWeights, fw.Dims n → SyncInv fw k tote →
      SyncInv (fw.applyBatch b k) k tote := by
  induction b with
  | nil => exact fun fw _ h => h
  | cons op rest ih =>
    intro fw hd h
    exact ih _ (dims_update hd op.1 op.2 k) (syncInv_update hd h op.1 op.2)

theorem applyBatch_weights (b : List (Nat × ℚ)) (u : Nat) :
    ∀ fw : FeatureWeights,
      (fw.applyBatch b u).weights = b.foldl (fun w op => addAt w op.1 op.2) fw.weights := by
  induction b with
  | nil => exact fun _ => rfl
  | cons op rest ih =>
    intro fw
    rw [applyBatch, List.foldl_cons, ← applyBatch, ih, List.foldl_cons, update_weights]

theorem syncInv_step {fw : FeatureWeights} {n k : Nat} {tote : List ℚ}
    (hd : fw.Dims n) (ht : tote.length = n) (h : SyncInv fw k tote) :
    SyncInv fw (k + 1) (List.zipWith (· + ·) tote fw.weights) := by
  intro i
  rw [getD_zipWith_add tote fw.weights (ht.trans hd.1.symm)]
  have h1 := h i
  push_cast at h1 ⊢
  ring_nf at h1 ⊢
  linarith

theorem runBatches_syncInv {n : Nat} (bs : List (List (Nat × ℚ))) :
    ∀ (fw : FeatureWeights) (k : Nat) (tote : List ℚ),
      fw.Dims n → tote.length = n → SyncInv fw k tote →
      (runBatches fw bs k).Dims n ∧
      ((eagerRun (fw.weights, tote) bs).2).length = n ∧
      (runBatches fw bs k).weights = (eagerRun (fw.weights, tote) bs).1 ∧
      SyncInv (runBatches fw bs k) (k + bs.length) (eagerRun (fw.weights, tote) bs).2 := by
  induction bs with
  | nil => exact fun fw k tote hd ht h => ⟨hd, ht, rfl, by simpa using h⟩
  | cons b rest ih =>
    intro fw k tote hd ht h
    have hstep : SyncInv fw (k + 1) (List.zipWith (· + ·) tote fw.weights) :=
      syncInv_step hd ht h
    have ht1 : (List.zipWith (· + ·) tote fw.weights).length = n :=
      (length_zipWith_add tote fw.weights (ht.trans hd.1.symm)).trans ht
    have hd1 : (fw.applyBatch b (k + 1)).Dims n := dims_applyBatch b (k + 1) fw hd
    have h1 : SyncInv (fw.applyBatch b (k + 1)) (k + 1) (List.zipWith (· + ·) tote fw.weights) :=
      syncInv_applyBatch b fw hd hstep
    have hwb : (fw.applyBatch b (k + 1)).weights =
        b.foldl (fun w op => addAt w op.1 op.2) fw.weights := applyBatch_weights b (k + 1) fw
    have := ih (fw.applyBatch b (k + 1)) (k + 1) (List.zipWith (· + ·) tote fw.weights) hd1 ht1 h1
    rw [hwb] at this
    refine ⟨this.1, this.2.1, this.2.2.1, ?_⟩
    have harith : k + 1 + rest.length = k + (b :: rest).length := by
      simp [List.length_cons]
      omega
    rw [← harith]
    exact this.2.2.2

theorem lastUpdate_updateTotals_preserved {fw : FeatureWeights} {i u : Nat}
    (h : fw.lastUpdate.getD i 0 = u) (l : Nat) :
    (fw.updateTotals l u).lastUpdate.getD i 0 = u := by
  simp only [updateTotals]
  by_cases hil : l = i
  · subst hil
    rw [getD_set_self]
    split
    · rfl
    · rw [← h, getD_of_len_le _ (Nat.le_of_not_lt (by assumption))]
  · rw [getD_set_ne _ hil]
    exact h

theorem lastUpdate_batch_preserved {u i : Nat} (ls : List Nat) :
    ∀ fw : FeatureWeights, fw.lastUpdate.getD i 0 = u →
      (fw.updateTotalsBatch ls u).lastUpdate.getD i 0 = u := by
  induction ls with
  | nil => exact fun _ h => h
  | cons l rest ih =>
    intro fw h
    exact ih _ (lastUpdate_updateTotals_preserved h l)

theorem lastUpdate_batch_mem {n u : Nat} (ls : List Nat) :
    ∀ fw : FeatureWeights, fw.Dims n → ∀ i ∈ ls, i < n →
      (fw.updateTotalsBatch ls u).lastUpdate.getD i 0 = u := by
  induction ls with
  | nil => intro fw _ i hi; exact absurd hi (List.not_mem_nil i)
  | cons l rest ih =>
    intro fw hd i hi hin
    rcases List.mem_cons.mp hi with heq | hmem
    · subst heq
      have hset : (fw.updateTotals i u).lastUpdate.getD i 0 = u := by
        simp only [updateTotals]
        rw [getD_set_self, if_pos (hd.2.2 ▸ hin)]
      exact lastUpdate_batch_preserved rest _ hset
    · exact ih _ (dims_updateTotals hd l u) i hmem hin

theorem dims_batch {n u : Nat} (ls : List Nat) :
    ∀ fw : FeatureWeights, fw.Dims n → (fw.updateTotalsBatch ls u).Dims n := by
  induction ls with
  | nil => exact fun _ h => h
  | cons l rest ih =>
    intro fw h
    exact ih _ (dims_updateTotals h l u)

theorem syncInv_batch {n u : Nat} {tote : List ℚ} (ls : List Nat) :
    ∀ fw : FeatureWeights, fw.Dims n → SyncInv fw u tote →
      SyncInv (fw.updateTotalsBatch ls u) u tote := by
  induction ls with
  | nil => exact fun _ _ h => h
  | cons l rest ih =>
    intro fw hd h
    exact ih _ (dims_updateTotals hd l u) (syncInv_updateTotals hd h l)

theorem flush_totals {n u : Nat} {tote : List ℚ} {ls : List Nat} {fw : FeatureWeights}
    (hd : fw.Dims n) (ht : tote.length = n) (h : SyncInv fw u tote) :
    ∀ i ∈ ls, (fw.updateTotalsBatch ls u).totals.getD i 0 = tote.getD i 0 := by
  intro i hi
  have hdb : (fw.updateTotalsBatch ls u).Dims n := dims_batch ls fw hd
  have hsb : SyncInv (fw.updateTotalsBatch ls u) u tote := syncInv_batch ls fw hd h
  by_cases hin : i < n
  · have hlast : (fw.updateTotalsBatch ls u).lastUpdate.getD i 0 = u :=
      lastUpdate_batch_mem ls fw hd i hi hin
    have := hsb i
    rw [hlast] at this
    simpa using this
  · have hle : n ≤ i := Nat.le_of_not_lt hin
    rw [getD_of_len_le _ (hdb.2.1 ▸ hle), getD_of_len_le _ (ht ▸ hle)]

end FeatureWeights

/-! ### Association-list and grow-check lemmas -/

theorem findFW_storeFW_self (ws : List (String × FeatureWeights)) (f : String)
    (w : FeatureWeights) : findFW (storeFW ws f w) f = some w := by
  induction ws with
  | nil => simp [storeFW, findFW]
  | cons kv rest ih =>
    by_cases h : kv.1 = f
    · simp [storeFW, findFW, h]
    · simpa [storeFW, findFW, h] using ih

theorem findFW_storeFW_ne (ws : List (String × FeatureWeights)) {f g : String}
    (h : f ≠ g) (w : FeatureWeights) : findFW (storeFW ws f w) g = findFW ws g := by
  induction ws with
  | nil => simp [storeFW, findFW, h]
  | cons kv rest ih =>
    obtain ⟨k, w0⟩ := kv
    rw [storeFW]
    by_cases hk : k = f
    · rw [if_pos hk, findFW, findFW]
      have hkg : ¬k = g := fun hg => h (by rw [← hk]; exact hg)
      rw [if_neg hkg, if_neg hkg]
    · rw [if_neg hk, findFW, findFW]
      by_cases hg : k = g
      · rw [if_pos hg, if_pos hg]
      · rw [if_neg hg, if_neg hg]
        exact ih

theorem findFW_mem {ws : List (String × FeatureWeights)} {f : String} {w : FeatureWeights}
    (h : findFW ws f = some w) : (f, w) ∈ ws := by
  induction ws with
  | nil => simp [findFW] at h
  | cons kv rest ih =>
    by_cases hk : kv.1 = f
    · rw [findFW, if_pos hk] at h
      injection h with h
      exact List.mem_cons.mpr (Or.inl (by rw [← hk, ← h]))
    · rw [findFW, if_neg hk] at h
      exact List.mem_cons_of_mem kv (ih h)

theorem findFW_map (ws : List (String × FeatureWeights)) (g : FeatureWeights → FeatureWeights)
    (f : String) :
    findFW (ws.map (fun kv => (kv.1, g kv.2))) f = (findFW ws f).map g := by
  induction ws with
  | nil => simp [findFW]
  | cons kv rest ih =>
    by_cases hk : kv.1 = f
    · simp [findFW, hk]
    · simpa [findFW, hk] using ih

namespace Perceptron

theorem updateNumLabels_labels (p : Perceptron) : p.updateNumLabels.labels = p.labels := by
  unfold updateNumLabels
  split <;> rfl

theorem updateNumLabels_is_frozen (p : Perceptron) :
    p.updateNumLabels.is_frozen = p.is_frozen := by
  unfold updateNumLabels
  split <;> rfl

theorem updateNumLabels_label_indices (p : Perceptron) :
    p.updateNumLabels.label_indices = p.label_indices := by
  unfold updateNumLabels
  split <;> rfl

theorem updateNumLabels_min_update (p : Perceptron) :
    p.updateNumLabels.min_update = p.min_update := by
  unfold updateNumLabels
  split <;> rfl

theorem updateNumLabels_update_index (p : Perceptron) :
    p.updateNumLabels.update_index = p.update_index := by
  unfold updateNumLabels
  split <;> rfl

theorem updateNumLabels_true_labels (p : Perceptron) :
    ∃ k, p.updateNumLabels.true_labels = p.true_labels ++ List.replicate k false := by
  unfold updateNumLabels
  split
  · exact ⟨p.num_labels - p.true_labels.length, rfl⟩
  · exact ⟨0, by simp⟩

theorem updateNumLabels_findFW (p : Perceptron) (f : String) :
    findFW p.updateNumLabels.weights f =
      if p.true_labels.length < p.num_labels
      then (findFW p.weights f).map (fun w => w.resize p.num_labels)
      else findFW p.weights f := by
  by_cases h : p.true_labels.length < p.num_labels
  · rw [if_pos h]
    unfold updateNumLabels
    rw [if_pos h]
    exact findFW_map p.weights (fun w => w.resize p.num_labels) f
  · rw [if_neg h]
    unfold updateNumLabels
    rw [if_neg h]

theorem consistent_updateNumLabels {p : Perceptron} (hc : p.Consistent) :
    p.updateNumLabels = p := by
  unfold updateNumLabels
  rw [if_neg]
  rw [hc.1]
  exact Nat.lt_irrefl _

/-! ### keptList lemmas -/

theorem kept_eq (tl : List Bool) :
    ∀ (k : Nat) (pl : List String),
      ((tl.zip pl).enumFrom k).filter (fun x => x.2.1) = keptList k tl pl := by
  induction tl with
  | nil => intro k pl; rfl
  | cons b tl ih =>
    intro k pl
    cases pl with
    | nil => rfl
    | cons s pl =>
      rw [List.zip_cons_cons, List.enumFrom_cons, List.filter_cons]
      cases b with
      | true => simpa [keptList] using ih (k + 1) pl
      | false => simpa [keptList] using ih (k + 1) pl

theorem kept_eq_enum (tl : List Bool) (pl : List String) :
    ((tl.zip pl).enum).filter (fun x => x.2.1) = keptList 0 tl pl :=
  kept_eq tl 0 pl

theorem keptList_all_false (tl : List Bool) (h : ∀ b ∈ tl, b = false) :
    ∀ (k : Nat) (pl : List String), keptList k tl pl = [] := by
  induction tl with
  | nil => intro k pl; rfl
  | cons b tl ih =>
    intro k pl
    cases pl with
    | nil => rfl
    | cons s pl =>
      have hb : b = false := h b (List.mem_cons_self b tl)
      rw [keptList, hb]
      simpa using ih (fun x hx => h x (List.mem_cons_of_mem b hx)) (k + 1) pl

theorem keptList_entry (tl : List Bool) :
    ∀ (k : Nat) (pl : List String), ∀ x ∈ keptList k tl pl,
      k ≤ x.1 ∧ x.2.1 = true ∧ x.2.2 = pl.getD (x.1 - k) "" := by
  induction tl with
  | nil => intro k pl x hx; exact absurd hx (List.not_mem_nil x)
  | cons b tl ih =>
    intro k pl x hx
    cases pl with
    | nil => exact absurd hx (List.not_mem_nil x)
    | cons s pl =>
      rw [keptList] at hx
      by_cases hb : b = true
      · rw [if_pos hb] at hx
        rcases List.mem_cons.mp hx with heq | hmem
        · subst heq
          exact ⟨Nat.le_refl k, hb, by simp⟩
        · obtain ⟨h1, h2, h3⟩ := ih (k + 1) pl x hmem
          refine ⟨Nat.le_of_succ_le h1, h2, ?_⟩
          rw [h3]
          have : x.1 - k = (x.1 - (k + 1)) + 1 := by omega
          rw [this]
          rfl
      · rw [if_neg hb] at hx
        obtain ⟨h1, h2, h3⟩ := ih (k + 1) pl x hx
        refine ⟨Nat.le_of_succ_le h1, h2, ?_⟩
        rw [h3]
        have : x.1 - k = (x.1 - (k + 1)) + 1 := by omega
        rw [this]
        rfl

theorem keptList_mem_fst (tl : List Bool) :
    ∀ (k : Nat) (pl : List String), tl.length ≤ pl.length →
      ∀ j, j ∈ (keptList k tl pl).map (fun x => x.1) ↔
        ∃ m, m < tl.length ∧ j = k + m ∧ tl.getD m false = true := by
  induction tl with
  | nil =>
    intro k pl _ j
    simp [keptList]
  | cons b tl ih =>
    intro k pl hlen j
    cases pl with
    | nil => simp at hlen
    | cons s pl =>
      have hlen' : tl.length ≤ pl.length := by simpa using hlen
      rw [keptList]
      by_cases hb : b = true
      · rw [if_pos hb]
        simp only [List.map_cons, List.mem_cons, ih (k + 1) pl hlen' j]
        constructor
        · rintro (rfl | ⟨m, hm, rfl, hget⟩)
          · exact ⟨0, by simp, by simp, by simpa using hb⟩
          · exact ⟨m + 1, by simp only [List.length_cons]; omega, by omega, by simpa using hget⟩
        · rintro ⟨m, hm, rfl, hget⟩
          cases m with
          | zero => left; omega
          | succ m' =>
            right
            refine ⟨m', ?_, by omega, by simpa using hget⟩
            simp only [List.length_cons] at hm
            omega
      · rw [if_neg hb]
        rw [ih (k + 1) pl hlen' j]
        constructor
        · rintro ⟨m, hm, rfl, hget⟩
          exact ⟨m + 1, by simp only [List.length_cons]; omega, by omega, by simpa using hget⟩
        · rintro ⟨m, hm, rfl, hget⟩
          cases m with
          | zero => exact absurd (by simpa using hget) hb
          | succ m' =>
            refine ⟨m', ?_, by omega, by simpa using hget⟩
            simp only [List.length_cons] at hm
            omega

theorem keptList_fst_lb (tl : List Bool) :
    ∀ (k : Nat) (pl : List String), ∀ x ∈ keptList k tl pl, k ≤ x.1 := by
  intro k pl x hx
  exact (keptList_entry tl k pl x hx).1

theorem keptList_pairwise (tl : List Bool) :
    ∀ (k : Nat) (pl : List String),
      ((keptList k tl pl).map (fun x => x.1)).Pairwise (· < ·) := by
  induction tl with
  | nil => intro k pl; simp [keptList]
  | cons b tl ih =>
    intro k pl
    cases pl with
    | nil => simp [keptList]
    | cons s pl =>
      rw [keptList]
      by_cases hb : b = true
      · rw [if_pos hb]
        rw [List.map_cons, List.pairwise_cons]
        refine ⟨?_, ih (k + 1) pl⟩
        intro j hj
        rcases List.mem_map.mp hj with ⟨x, hx, rfl⟩
        exact Nat.lt_of_succ_le (keptList_fst_lb tl (k + 1) pl x hx)
      · rw [if_neg hb]
        exact ih (k + 1) pl

/-! ### Update-fold lemmas -/

theorem foldl_updateFeature_other (pc : Perceptron) (pred t : Nat) (lr : ℚ) :
    ∀ (features : List (String × ℚ)) (ws : List (String × FeatureWeights)) (f : String),
      (∀ fv ∈ features, fv.1 = f → fv.2 = 0) →
      findFW (features.foldl (pc.updateFeature pred t lr) ws) f = findFW ws f := by
  intro features
  induction features with
  | nil => intro ws f _; rfl
  | cons fv rest ih =>
    intro ws f hz
    rw [List.foldl_cons]
    rw [ih _ f (fun x hx => hz x (List.mem_cons_of_mem fv hx))]
    by_cases h0 : fv.2 = 0
    · rw [updateFeature, if_pos h0]
    · rw [updateFeature, if_neg h0]
      have hne : fv.1 ≠ f := fun he => h0 (hz fv (List.mem_cons_self fv rest) he)
      exact findFW_storeFW_ne ws hne _

theorem foldl_updateFeature_nodup (pc : Perceptron) (pred t : Nat) (lr : ℚ) :
    ∀ (features : List (String × ℚ)) (ws : List (String × FeatureWeights)),
      (features.map Prod.fst).Nodup →
      ∀ fv ∈ features, fv.2 ≠ 0 →
        findFW (features.foldl (pc.updateFeature pred t lr) ws) fv.1 =
          some ((((findFW ws fv.1).getD (FeatureWeights.init pc.num_labels)).update t
            (lr * fv.2) pc.update_index).update pred (-(lr * fv.2)) pc.update_index) := by
  intro features
  induction features with
  | nil => intro ws _ fv hfv; exact absurd hfv (List.not_mem_nil fv)
  | cons g rest ih =>
    intro ws hnd fv hfv hv
    rw [List.map_cons, List.nodup_cons] at hnd
    rw [List.foldl_cons]
    rcases List.mem_cons.mp hfv with heq | hmem
    · subst heq
      have hother : ∀ x ∈ rest, x.1 = fv.1 → x.2 = 0 := by
        intro x hx he
        exact absurd (he ▸ List.mem_map_of_mem Prod.fst hx) hnd.1
      rw [foldl_updateFeature_other pc pred t lr rest _ fv.1 hother]
      rw [updateFeature, if_neg hv]
      exact findFW_storeFW_self ws fv.1 _
    · have hne : g.1 ≠ fv.1 := by
        intro he
        exact hnd.1 (he ▸ List.mem_map_of_mem Prod.fst hmem)
      have hfind : findFW (pc.updateFeature pred t lr ws g) fv.1 = findFW ws fv.1 := by
        by_cases h0 : g.2 = 0
        · rw [updateFeature, if_pos h0]
        · rw [updateFeature, if_neg h0]
          exact findFW_storeFW_ne ws hne _
      rw [ih _ hnd.2 fv hmem hv, hfind]

/-! ### Score lemmas -/

theorem foldl_scoreStep_skip {q : Perceptron} {f : String} {w : FeatureWeights}
    (hq : q.is_frozen = false) (hfind : findFW q.weights f = some w)
    (hcount : w.update_count < q.min_update) :
    ∀ (features : List (String × ℚ)) (acc : List ℚ),
      features.foldl q.scoreStep acc =
        (features.filter (fun fv => fv.1 ≠ f)).foldl q.scoreStep acc := by
  intro features
  induction features with
  | nil => intro acc; rfl
  | cons fv rest ih =>
    intro acc
    rw [List.foldl_cons, List.filter_cons]
    by_cases hf : fv.1 = f
    · have hd : (decide (fv.1 ≠ f)) = false := by simp [hf]
      rw [hd]
      simp only [Bool.false_eq_true, if_false]
      have hstep : q.scoreStep acc fv = acc := by
        rw [scoreStep]
        by_cases h0 : fv.2 = 0
        · rw [if_pos h0]
        · rw [if_neg h0, hf, hfind]
          simp only [if_pos (And.intro hq hcount)]
      rw [hstep]
      exact ih acc
    · have hd : (decide (fv.1 ≠ f)) = true := by simp [hf]
      rw [hd]
      simp only [if_true]
      rw [List.foldl_cons]
      exact ih (q.scoreStep acc fv)

theorem score_skip_below {p : Perceptron} {f : String} {w : FeatureWeights}
    (hp : p.is_frozen = false) (hfind : findFW p.weights f = some w)
    (hcount : w.update_count < p.min_update) (features : List (String × ℚ)) :
    p.score features = p.score (features.filter (fun fv => fv.1 ≠ f)) := by
  have hq : p.updateNumLabels.is_frozen = false := (updateNumLabels_is_frozen p).trans hp
  have hmin : p.updateNumLabels.min_update = p.min_update := updateNumLabels_min_update p
  have hfind1 : ∃ w', findFW p.updateNumLabels.weights f = some w' ∧
      w'.update_count = w.update_count := by
    rw [updateNumLabels_findFW]
    split
    · exact ⟨w.resize p.num_labels, by rw [hfind]; rfl, rfl⟩
    · exact ⟨w, hfind, rfl⟩
  obtain ⟨w', hw', hcnt⟩ := hfind1
  have hsv : p.updateNumLabels.scoreVec features =
      p.updateNumLabels.scoreVec (features.filter (fun fv => fv.1 ≠ f)) :=
    foldl_scoreStep_skip hq hw' (by rw [hcnt, hmin]; exact hcount) features _
  rw [score, score, if_neg (by rw [hp]; exact Bool.false_ne_true), hsv]

theorem scoreVec_append_frozen {p : Perceptron} {f : String} {w : FeatureWeights}
    (hp : p.is_frozen = true) (hfind : findFW p.weights f = some w) {v : ℚ} (hv : v ≠ 0)
    (features : List (String × ℚ)) :
    p.scoreVec (features ++ [(f, v)]) =
      List.zipWith (· + ·) (p.scoreVec features) (w.weights.map (fun x => v * x)) := by
  rw [scoreVec, List.foldl_append, List.foldl_cons, List.foldl_nil, ← scoreVec]
  rw [scoreStep]
  rw [if_neg hv]
  simp only [hfind]
  rw [if_neg]
  intro hcond
  rw [hp] at hcond
  exact Bool.noConfusion hcond.1

theorem foldl_scoreStep_length {q : Perceptron} {n : Nat}
    (h : ∀ fw ∈ q.weights, fw.2.weights.length = n) :
    ∀ (features : List (String × ℚ)) (acc : List ℚ), acc.length = n →
      (features.foldl q.scoreStep acc).length = n := by
  intro features
  induction features with
  | nil => intro acc ha; exact ha
  | cons fv rest ih =>
    intro acc ha
    rw [List.foldl_cons]
    refine ih _ ?_
    rw [scoreStep]
    by_cases h0 : fv.2 = 0
    · rw [if_pos h0]; exact ha
    · rw [if_neg h0]
      cases hfd : findFW q.weights fv.1 with
      | none => exact ha
      | some w =>
        show (if q.is_frozen = false ∧ w.update_count < q.min_update then acc
          else List.zipWith (· + ·) acc (w.weights.map (fun x => fv.2 * x))).length = n
        split
        · exact ha
        · rw [List.length_zipWith, List.length_map, ha, h (fv.1, w) (findFW_mem hfd)]
          exact Nat.min_self n

theorem scoreVec_length {q : Perceptron}
    (h : ∀ fw ∈ q.weights, fw.2.weights.length = q.num_labels)
    (features : List (String × ℚ)) : (q.scoreVec features).length = q.num_labels :=
  foldl_scoreStep_length h features (zeros q.num_labels) (zeros_length q.num_labels)

/-! ### Unfolding the guarded operations -/

theorem update_eq {p : Perceptron} (hp : p.is_frozen = false) (hc : p.Consistent)
    (features : List (String × ℚ)) (pred t : Nat) (lr : ℚ) :
    p.update features pred t lr =
      Except.ok ⟨p.labels,
        features.foldl
          (updateFeature ⟨p.labels, p.weights, p.is_frozen, p.label_indices, p.min_update,
            p.update_index + 1, p.true_labels.set t true⟩ pred t lr) p.weights,
        p.is_frozen, p.label_indices, p.min_update, p.update_index + 1,
        p.true_labels.set t true⟩ := by
  rw [update, if_neg (by rw [hp]; exact Bool.false_ne_true)]
  dsimp only
  rw [consistent_updateNumLabels
    (show Perceptron.Consistent {p with update_index := p.update_index + 1} from hc)]

theorem finalize_eq {p : Perceptron} (hp : p.is_frozen = false) (hc : p.Consistent)
    (avg : Bool) :
    p.finalize avg =
      (if keptList 0 p.true_labels p.labels = [] then Except.error PError.valueError
       else Except.ok
        ⟨(keptList 0 p.true_labels p.labels).map (fun x => x.2.2),
         p.weights.filterMap (fun fw =>
           if p.min_update ≤ fw.2.update_count then
             some (fw.1, fw.2.finalize p.update_index
               ((keptList 0 p.true_labels p.labels).map (fun x => x.1)) avg)
           else none),
         true, some ((keptList 0 p.true_labels p.labels).map (fun x => x.1)), 1, 0, []⟩) := by
  rw [finalize, if_neg (by rw [hp]; exact Bool.false_ne_true), consistent_updateNumLabels hc]
  simp only [kept_eq_enum]

/-! ### Persistence lemmas -/

theorem loadFresh_save_unfrozen (l : List String) (w : List (String × FeatureWeights))
    (li : Option (List Nat)) (mu ui : Nat) (tl : List Bool) :
    loadFresh (save ⟨l, w, false, li, mu, ui, tl⟩) = ⟨l, w, false, none, mu, ui, tl⟩ := rfl

theorem loadFresh_save_frozen (l : List String) (w : List (String × FeatureWeights))
    (li : Option (List Nat)) (mu ui : Nat) (tl : List Bool) :
    loadFresh (save ⟨l, w, true, li, mu, ui, tl⟩) = ⟨l, w, true, none, 1, 0, []⟩ := rfl

theorem scoreVec_set_li (q : Perceptron) (x : Option (List Nat))
    (features : List (String × ℚ)) :
    scoreVec {q with label_indices := x} features = q.scoreVec features := rfl

theorem updateNumLabels_set_li (p : Perceptron) (li : Option (List Nat)) :
    ({p with label_indices := li} : Perceptron).updateNumLabels =
      {p.updateNumLabels with label_indices := li} := by
  simp only [updateNumLabels, num_labels]
  split <;> rfl

theorem updateNumLabels_li_explicit (l : List String) (w : List (String × FeatureWeights))
    (fz : Bool) (mu ui : Nat) (tl : List Bool) (li li' : Option (List Nat)) :
    Perceptron.updateNumLabels ⟨l, w, fz, li, mu, ui, tl⟩ =
      {Perceptron.updateNumLabels ⟨l, w, fz, li', mu, ui, tl⟩ with label_indices := li} := by
  simp only [updateNumLabels, num_labels]
  split <;> rfl

theorem score_map_snd (p : Perceptron) (features : List (String × ℚ)) :
    (p.score features).map Prod.snd =
      (if p.is_frozen then p else p.updateNumLabels).scoreVec features := by
  rw [score]
  cases h : (if p.is_frozen then p else p.updateNumLabels).label_indices with
  | none => exact List.enum_map_snd _
  | some idx =>
    rw [List.map_map]
    exact List.enum_map_snd _

theorem score_frozen_some (q : Perceptron) (li : List Nat) (hfz : q.is_frozen = true)
    (hli : q.label_indices = some li) (features : List (String × ℚ)) :
    q.score features = (q.scoreVec features).enum.map (fun iv => (li.getD iv.1 0, iv.2)) := by
  rw [score, if_pos hfz, hli]

theorem scoreStep_frozen_congr {p q : Perceptron} (hw : p.weights = q.weights)
    (hp : p.is_frozen = true) (hq : q.is_frozen = true) (acc : List ℚ) (fv : String × ℚ) :
    p.scoreStep acc fv = q.scoreStep acc fv := by
  rw [scoreStep, scoreStep, hw]
  by_cases h0 : fv.2 = 0
  · rw [if_pos h0, if_pos h0]
  · rw [if_neg h0, if_neg h0]
    cases findFW q.weights fv.1 with
    | none => rfl
    | some w =>
      show (if p.is_frozen = false ∧ w.update_count < p.min_update then acc
          else List.zipWith (· + ·) acc (w.weights.map (fun x => fv.2 * x))) =
        (if q.is_frozen = false ∧ w.update_count < q.min_update then acc
          else List.zipWith (· + ·) acc (w.weights.map (fun x => fv.2 * x)))
      rw [if_neg (fun hcd => by rw [hp] at hcd; exact Bool.noConfusion hcd.1),
        if_neg (fun hcd => by rw [hq] at hcd; exact Bool.noConfusion hcd.1)]

theorem foldl_scoreStep_frozen_congr {p q : Perceptron} (hw : p.weights = q.weights)
    (hp : p.is_frozen = true) (hq : q.is_frozen = true) :
    ∀ (features : List (String × ℚ)) (acc : List ℚ),
      features.foldl p.scoreStep acc = features.foldl q.scoreStep acc := by
  intro features
  induction features with
  | nil => intro acc; rfl
  | cons fv rest ih =>
    intro acc
    rw [List.foldl_cons, List.foldl_cons, scoreStep_frozen_congr hw hp hq acc fv]
    exact ih _

theorem scoreVec_frozen_congr {p q : Perceptron} (hl : p.num_labels = q.num_labels)
    (hw : p.weights = q.weights) (hp : p.is_frozen = true) (hq : q.is_frozen = true)
    (features : List (String × ℚ)) : p.scoreVec features = q.scoreVec features := by
  rw [scoreVec, scoreVec, hl]
  exact foldl_scoreStep_frozen_congr hw hp hq features _

end Perceptron

namespace FeatureWeights

theorem finalize_weights_length (fw : FeatureWeights) (u : Nat) (labels : List Nat)
    (avg : Bool) : (fw.finalize u labels avg).weights.length = labels.length := by
  rw [finalize]
  show (if avg then labels.map _ else labels.map _).length = labels.length
  split <;> exact List.length_map _ _

theorem double_update_weights (w : FeatureWeights) (l : Nat) (v : ℚ) (u : Nat) :
    ((w.update l v u).update l (-v) u).weights = w.weights := by
  rw [update_weights, update_weights, addAt_cancel]

theorem double_update_count (w : FeatureWeights) (l1 l2 : Nat) (v1 v2 : ℚ) (u : Nat) :
    ((w.update l1 v1 u).update l2 v2 u).update_count = w.update_count + 2 := rfl

end FeatureWeights

theorem Perceptron.finalize_unfrozen_cases (p : Perceptron) (avg : Bool)
    (hp : p.is_frozen = false) :
    (∃ q, p.finalize avg = Except.ok q) ∨ p.finalize avg = Except.error PError.valueError := by
  rw [Perceptron.finalize, if_neg (by rw [hp]; exact Bool.false_ne_true)]
  dsimp only
  split
  · right; rfl
  · left; exact ⟨_, rfl⟩

/-! ## The claims -/

/-- C1: lazy-total synchronization is exact.  For every trace of update
batches (the `k`-th batch carrying the per-label adjustments of the `k`-th
`Perceptron.update` call, all issued at `update_index = k`) and every label
`i` force-synchronized at the final `update_index`, the reconstructed
`totals[i]` equals the eager per-step accumulation of the weight held over
each unit step, and `FeatureWeights.finalize` with `average = true` returns
exactly that sum divided by `update_index` for each kept label. -/
theorem C1_lazy_total_sync_exact (n : Nat) (bs : List (List (Nat × ℚ))) (ls : List Nat) :
    (∀ i ∈ ls,
      ((FeatureWeights.runBatches (FeatureWeights.init n) bs 0).updateTotalsBatch ls
        bs.length).totals.getD i 0 = (eagerRun (zeros n, zeros n) bs).2.getD i 0) ∧
    ((FeatureWeights.runBatches (FeatureWeights.init n) bs 0).finalize bs.length ls
        true).weights =
      ls.map (fun i => (eagerRun (zeros n, zeros n) bs).2.getD i 0 / ((bs.length : ℚ))) := by
  have hd0 : (FeatureWeights.init n).Dims n :=
    ⟨zeros_length n, zeros_length n, List.length_replicate n 0⟩
  have ht0 : (zeros n).length = n := zeros_length n
  have hs0 : SyncInv (FeatureWeights.init n) 0 (zeros n) := by
    intro i
    show (zeros n).getD i 0 + (zeros n).getD i 0 *
      ((0 : ℚ) - ((List.replicate n 0 : List Nat).getD i 0 : ℚ)) = (zeros n).getD i 0
    rw [zeros_getD]
    ring
  obtain ⟨hdf, htf, hwf, hsf⟩ :=
    FeatureWeights.runBatches_syncInv bs (FeatureWeights.init n) 0 (zeros n) hd0 ht0 hs0
  have hiw : (FeatureWeights.init n).weights = zeros n := rfl
  rw [hiw] at htf hwf hsf
  rw [Nat.zero_add] at hsf
  have hflush := @FeatureWeights.flush_totals n bs.length _ ls _ hdf htf hsf
  refine ⟨hflush, ?_⟩
  show ls.map (fun l =>
      ((FeatureWeights.runBatches (FeatureWeights.init n) bs 0).updateTotalsBatch ls
        bs.length).totals.getD l 0 / ((bs.length : ℚ))) = _
  exact List.map_congr_left (fun i hi => by rw [hflush i hi])

/-- C2 counterexample: in the spec scenario (labels `[A, B]`, `min_update=1`),
after `update({"f1": 1.0}, pred=0, true=1, learning_rate=1)` the feature's
`update_count` is 2, not 1: each `Perceptron.update` issues two
`FeatureWeights.update` calls per touched feature and each call increments
`update_count`. -/
theorem C2_counterexample :
    (Perceptron.mk0 ["A", "B"] 1).update [("f1", 1)] 0 1 1 = Except.ok Perceptron.c2p ∧
    Perceptron.c2p.countOf "f1" = 2 ∧ ¬Perceptron.c2p.countOf "f1" = 1 := by
  with_unfolding_all decide

/-- C2 amended: `update(features, p, p)` with predicted equal to true leaves
every `weights[label]` value of every feature unchanged for all labels, and
increments `update_count` by exactly 2 for every touched feature (one per
`FeatureWeights.update` call); in the spec scenario the feature `f1` has
`update_count = 2` after the first call and `update_count = 4` (with weights
still `[-1.0, 1.0]`) after the second. -/
theorem C2_correct_prediction_noop (p : Perceptron) (features : List (String × ℚ))
    (t : Nat) (lr : ℚ) (hp : p.is_frozen = false) (hc : p.Consistent)
    (hnd : (features.map Prod.fst).Nodup) :
    (∃ q, p.update features t t lr = Except.ok q ∧
      (∀ f lab, q.wval f lab = p.wval f lab) ∧
      (∀ fv ∈ features, fv.2 ≠ 0 → q.countOf fv.1 = p.countOf fv.1 + 2)) ∧
    (Perceptron.c2p.countOf "f1" = 2 ∧ Perceptron.c2p2.countOf "f1" = 4 ∧
      Perceptron.c2p2.wval "f1" 0 = -1 ∧ Perceptron.c2p2.wval "f1" 1 = 1) := by
  refine ⟨?_, by with_unfolding_all decide⟩
  rw [Perceptron.update_eq hp hc]
  refine ⟨_, rfl, ?_, ?_⟩
  · intro f lab
    simp only [Perceptron.wval]
    by_cases hf : ∃ fv ∈ features, fv.1 = f ∧ fv.2 ≠ 0
    · obtain ⟨fv, hmem, hfeq, hnz⟩ := hf
      subst hfeq
      have hfind := Perceptron.foldl_updateFeature_nodup
        ⟨p.labels, p.weights, p.is_frozen, p.label_indices, p.min_update,
          p.update_index + 1, p.true_labels.set t true⟩ t t lr features p.weights
        hnd fv hmem hnz
      show ((findFW (features.foldl _ p.weights) fv.1).map _).getD 0 = _
      rw [hfind]
      cases hw0 : findFW p.weights fv.1 with
      | some w =>
        simp only [Option.getD_some, Option.map_some']
        rw [FeatureWeights.double_update_weights]
      | none =>
        simp only [Option.getD_none, Option.map_some', Option.map_none']
        rw [Option.getD_some, FeatureWeights.double_update_weights]
        show (FeatureWeights.init _).weights.getD lab 0 = (0 : ℚ)
        exact zeros_getD _ lab
    · have hother : ∀ fv ∈ features, fv.1 = f → fv.2 = 0 := by
        intro fv hm he
        by_contra hnz
        exact hf ⟨fv, hm, he, hnz⟩
      show ((findFW (features.foldl _ p.weights) f).map _).getD 0 = _
      rw [Perceptron.foldl_updateFeature_other _ t t lr features p.weights f hother]
  · intro fv hmem hnz
    have hfind := Perceptron.foldl_updateFeature_nodup
      ⟨p.labels, p.weights, p.is_frozen, p.label_indices, p.min_update,
        p.update_index + 1, p.true_labels.set t true⟩ t t lr features p.weights
      hnd fv hmem hnz
    simp only [Perceptron.countOf]
    show ((findFW (features.foldl _ p.weights) fv.1).map _).getD 0 = _
    rw [hfind]
    cases hw0 : findFW p.weights fv.1 with
    | some w =>
      simp only [Option.getD_some, Option.map_some']
      rw [FeatureWeights.double_update_count]
    | none =>
      simp only [Option.getD_none, Option.map_some', Option.map_none']
      rw [Option.getD_some, FeatureWeights.double_update_count]
      rfl

/-- C3: each `Perceptron.update` call increments the global `update_index`
exactly once, and for every feature with a non-zero value it performs exactly
two `FeatureWeights.update` calls at that same index: `+learning_rate*value`
to the true label and `-learning_rate*value` to the predicted label; in the
spec scenario `weights["f1"].weights == [-1.0, 1.0]` after the first update. -/
theorem C3_two_fw_updates_per_feature (p : Perceptron) (features : List (String × ℚ))
    (pred t : Nat) (lr : ℚ) (hp : p.is_frozen = false) (hc : p.Consistent)
    (hnd : (features.map Prod.fst).Nodup) :
    (∃ q, p.update features pred t lr = Except.ok q ∧
      q.update_index = p.update_index + 1 ∧
      (∀ fv ∈ features, fv.2 ≠ 0 →
        findFW q.weights fv.1 =
          some ((((findFW p.weights fv.1).getD
              (FeatureWeights.init p.num_labels)).update t (lr * fv.2)
            (p.update_index + 1)).update pred (-(lr * fv.2)) (p.update_index + 1)))) ∧
    (findFW Perceptron.c2p.weights "f1").map (fun w => w.weights) = some [-1, 1] := by
  refine ⟨?_, by with_unfolding_all decide⟩
  rw [Perceptron.update_eq hp hc]
  refine ⟨_, rfl, rfl, ?_⟩
  intro fv hmem hnz
  exact Perceptron.foldl_updateFeature_nodup
    ⟨p.labels, p.weights, p.is_frozen, p.label_indices, p.min_update,
      p.update_index + 1, p.true_labels.set t true⟩ pred t lr features p.weights
    hnd fv hmem hnz

/-- C4 counterexample: a finalized (frozen) model reachable from the spec
scenario has `label_indices = [1]`, which `save` does not serialize; loading
the saved record into a fresh instance yields different `score` output keys
(`{0: v}` instead of `{1: v}`) on the same feature vector. -/
theorem C4_counterexample :
    (Perceptron.mk0 ["A", "B"] 1).update [("f1", 1)] 0 1 1 = Except.ok Perceptron.c2p ∧
    Perceptron.c2p.finalize true = Except.ok Perceptron.c4fz ∧
    Perceptron.c4fz.is_frozen = true ∧
    (Perceptron.loadFresh Perceptron.c4fz.save).score [("f1", 1)] ≠
      Perceptron.c4fz.score [("f1", 1)] := by
  with_unfolding_all decide

/-- C4 amended: save-then-load into a fresh instance always preserves the
multiset (indeed the ordered list) of score values, and preserves the scores
exactly (keys included) whenever `label_indices` is `None` — in particular
for every unfrozen instance and every frozen instance loaded from disk.  For
a model produced by `finalize` with a non-identity `label_indices`, the keys
are re-mapped to dense indices because `save` omits `_label_indices`. -/
theorem C4_roundtrip (p : Perceptron) (features : List (String × ℚ)) :
    ((Perceptron.loadFresh p.save).score features).map Prod.snd =
      (p.score features).map Prod.snd ∧
    (p.label_indices = none →
      (Perceptron.loadFresh p.save).score features = p.score features) := by
  obtain ⟨l, w, fz, li, mu, ui, tl⟩ := p
  cases fz with
  | false =>
    rw [Perceptron.loadFresh_save_unfrozen]
    constructor
    · rw [Perceptron.score_map_snd, Perceptron.score_map_snd]
      show Perceptron.scoreVec
          (Perceptron.updateNumLabels ⟨l, w, false, none, mu, ui, tl⟩) features =
        Perceptron.scoreVec
          (Perceptron.updateNumLabels ⟨l, w, false, li, mu, ui, tl⟩) features
      rw [Perceptron.updateNumLabels_li_explicit l w false mu ui tl none li]
      exact Perceptron.scoreVec_set_li _ none features
    · intro hli
      have hli' : li = none := hli
      subst hli'
      rfl
  | true =>
    rw [Perceptron.loadFresh_save_frozen]
    constructor
    · rw [Perceptron.score_map_snd, Perceptron.score_map_snd]
      show Perceptron.scoreVec ⟨l, w, true, none, 1, 0, []⟩ features =
        Perceptron.scoreVec ⟨l, w, true, li, mu, ui, tl⟩ features
      exact Perceptron.scoreVec_frozen_congr rfl rfl rfl rfl features
    · intro hli
      have hli' : li = none := hli
      subst hli'
      show (Perceptron.scoreVec ⟨l, w, true, none, 1, 0, []⟩ features).enum =
        (Perceptron.scoreVec ⟨l, w, true, none, mu, ui, tl⟩ features).enum
      exact congrArg List.enum (Perceptron.scoreVec_frozen_congr rfl rfl rfl rfl features)

/-- C5: the weights mapping of a model returned by `finalize` contains a
feature exactly when the original mapping contained it with
`update_count >= min_update`; features strictly below the threshold are
dropped, features at or above it are kept. -/
theorem C5_threshold_pruning (p q : Perceptron) (avg : Bool)
    (hp : p.is_frozen = false) (hc : p.Consistent)
    (hq : p.finalize avg = Except.ok q) :
    ∀ f : String,
      (∃ w', (f, w') ∈ q.weights) ↔
        ∃ w, (f, w) ∈ p.weights ∧ p.min_update ≤ w.update_count := by
  rw [Perceptron.finalize_eq hp hc] at hq
  by_cases hk : Perceptron.keptList 0 p.true_labels p.labels = []
  · rw [if_pos hk] at hq
    exact Except.noConfusion hq
  · rw [if_neg hk] at hq
    injection hq with hq
    have hqw : q.weights = p.weights.filterMap (fun fw =>
        if p.min_update ≤ fw.2.update_count then
          some (fw.1, fw.2.finalize p.update_index
            ((Perceptron.keptList 0 p.true_labels p.labels).map (fun x => x.1)) avg)
        else none) := by
      rw [← hq]
    intro f
    simp only [hqw, List.mem_filterMap]
    constructor
    · rintro ⟨w', a, ha, hsome⟩
      by_cases hcnt : p.min_update ≤ a.2.update_count
      · rw [if_pos hcnt] at hsome
        injection hsome with hpair
        have hf1 : a.1 = f := congrArg Prod.fst hpair
        refine ⟨a.2, ?_, hcnt⟩
        have heta : (f, a.2) = a := by rw [← hf1]
        rw [heta]
        exact ha
      · rw [if_neg hcnt] at hsome
        exact Option.noConfusion hsome
    · rintro ⟨w, hw, hcnt⟩
      exact ⟨w.finalize p.update_index
        ((Perceptron.keptList 0 p.true_labels p.labels).map (fun x => x.1)) avg,
        (f, w), hw, by rw [if_pos hcnt]⟩

/-- C9: `update` and `finalize` on a frozen instance always fail with the
`InvalidStateError`-style assertion (returning only the error, the state thus
untouched); on an unfrozen instance `update` always succeeds and `finalize`
never fails with that error. -/
theorem C9_frozen_guard :
    (∀ (p : Perceptron) (features : List (String × ℚ)) (pred t : Nat) (lr : ℚ),
      p.is_frozen = true →
        p.update features pred t lr = Except.error PError.invalidState) ∧
    (∀ (p : Perceptron) (avg : Bool),
      p.is_frozen = true → p.finalize avg = Except.error PError.invalidState) ∧
    (∀ (p : Perceptron) (features : List (String × ℚ)) (pred t : Nat) (lr : ℚ),
      p.is_frozen = false → ∃ q, p.update features pred t lr = Except.ok q) ∧
    (∀ (p : Perceptron) (avg : Bool),
      p.is_frozen = false → p.finalize avg ≠ Except.error PError.invalidState) := by
  refine ⟨?_, ?_, ?_, ?_⟩
  · intro p features pred t lr hp
    rw [Perceptron.update, if_pos hp]
  · intro p avg hp
    rw [Perceptron.finalize, if_pos hp]
  · intro p features pred t lr hp
    rw [Perceptron.update, if_neg (by rw [hp]; exact Bool.false_ne_true)]
    exact ⟨_, rfl⟩
  · intro p avg hp h
    rcases Perceptron.finalize_unfrozen_cases p avg hp with ⟨q, hq⟩ | hv
    · rw [hq] at h
      exact Except.noConfusion h
    · rw [hv] at h
      injection h with h
      exact PError.noConfusion h

/-- C10: `finalize` on an unfrozen perceptron in which no label was ever
marked true (in particular before any `update` call) does not return a
frozen model: it raises the `ValueError` coming from unpacking the empty
kept-label list. -/
theorem C10_finalize_empty_value_error (p : Perceptron) (avg : Bool)
    (hp : p.is_frozen = false) (hall : ∀ b ∈ p.true_labels, b = false) :
    p.finalize avg = Except.error PError.valueError := by
  rw [Perceptron.finalize, if_neg (by rw [hp]; exact Bool.false_ne_true)]
  dsimp only
  rw [Perceptron.kept_eq_enum]
  have hall' : ∀ b ∈ p.updateNumLabels.true_labels, b = false := by
    obtain ⟨k, hk⟩ := Perceptron.updateNumLabels_true_labels p
    rw [hk]
    intro b hb
    rcases List.mem_append.mp hb with hb1 | hb2
    · exact hall b hb1
    · exact List.eq_of_mem_replicate hb2
  rw [Perceptron.keptList_all_false p.updateNumLabels.true_labels hall' 0
    p.updateNumLabels.labels]
  rw [if_pos rfl]

/-- C6: after `finalize`, the frozen model's `label_indices` lists exactly
the original positions whose label was ever marked true, in increasing
(original) order; the kept label identifiers are those positions' labels in
their original relative order; and `score` on the finalized model never
returns an entry keyed to a position whose label was never true. -/
theorem C6_label_pruning (p q : Perceptron) (avg : Bool)
    (hp : p.is_frozen = false) (hc : p.Consistent)
    (hq : p.finalize avg = Except.ok q) :
    ∃ li : List Nat, q.label_indices = some li ∧
      li.Pairwise (· < ·) ∧
      (∀ j, j ∈ li ↔ j < p.num_labels ∧ p.true_labels.getD j false = true) ∧
      q.labels = li.map (fun i => p.labels.getD i "") ∧
      (∀ (features : List (String × ℚ)) (j : Nat),
        p.true_labels.getD j false = false → ∀ pr ∈ q.score features, pr.1 ≠ j) := by
  rw [Perceptron.finalize_eq hp hc] at hq
  by_cases hk : Perceptron.keptList 0 p.true_labels p.labels = []
  · rw [if_pos hk] at hq
    exact Except.noConfusion hq
  · rw [if_neg hk] at hq
    injection hq with hq
    have hqli : q.label_indices =
        some ((Perceptron.keptList 0 p.true_labels p.labels).map (fun x => x.1)) := by
      rw [← hq]
    have hqlab : q.labels =
        (Perceptron.keptList 0 p.true_labels p.labels).map (fun x => x.2.2) := by
      rw [← hq]
    have hqw : q.weights = p.weights.filterMap (fun fw =>
        if p.min_update ≤ fw.2.update_count then
          some (fw.1, fw.2.finalize p.update_index
            ((Perceptron.keptList 0 p.true_labels p.labels).map (fun x => x.1)) avg)
        else none) := by
      rw [← hq]
    have hqfz : q.is_frozen = true := by
      rw [← hq]
    have hmemiff : ∀ j,
        (j ∈ (Perceptron.keptList 0 p.true_labels p.labels).map (fun x => x.1)) ↔
          (j < p.num_labels ∧ p.true_labels.getD j false = true) := by
      intro j
      rw [Perceptron.keptList_mem_fst p.true_labels 0 p.labels (le_of_eq hc.1) j]
      constructor
      · rintro ⟨m, hm, rfl, hget⟩
        rw [Nat.zero_add]
        refine ⟨?_, hget⟩
        rw [← hc.1]
        exact hm
      · rintro ⟨hj, hget⟩
        refine ⟨j, ?_, (Nat.zero_add j).symm, hget⟩
        rw [hc.1]
        exact hj
    refine ⟨(Perceptron.keptList 0 p.true_labels p.labels).map (fun x => x.1),
      hqli, Perceptron.keptList_pairwise p.true_labels 0 p.labels, hmemiff, ?_, ?_⟩
    · rw [hqlab, List.map_map]
      refine List.map_congr_left ?_
      intro x hx
      have h := Perceptron.keptList_entry p.true_labels 0 p.labels x hx
      show x.2.2 = p.labels.getD x.1 ""
      rw [h.2.2, Nat.sub_zero]
    · intro features j hfalse pr hpr
      rw [Perceptron.score_frozen_some q _ hqfz hqli features] at hpr
      obtain ⟨iv, hiv, hpr2⟩ := List.mem_map.mp hpr
      have hlt : iv.1 < (q.scoreVec features).length := List.fst_lt_of_mem_enum hiv
      have hkl : ((Perceptron.keptList 0 p.true_labels p.labels).map
          (fun x => x.2.2)).length =
          ((Perceptron.keptList 0 p.true_labels p.labels).map (fun x => x.1)).length := by
        rw [List.length_map, List.length_map]
      have hwlen : ∀ fw ∈ q.weights, fw.2.weights.length = q.num_labels := by
        rw [hqw, Perceptron.num_labels, hqlab]
        intro fw hfw
        obtain ⟨a, ha, hsome⟩ := List.mem_filterMap.mp hfw
        by_cases hcnt : p.min_update ≤ a.2.update_count
        · rw [if_pos hcnt] at hsome
          injection hsome with hp2
          rw [← hp2]
          show (a.2.finalize p.update_index
            ((Perceptron.keptList 0 p.true_labels p.labels).map (fun x => x.1))
            avg).weights.length = _
          rw [FeatureWeights.finalize_weights_length, hkl]
        · rw [if_neg hcnt] at hsome
          exact Option.noConfusion hsome
      have hslen : (q.scoreVec features).length = q.num_labels :=
        Perceptron.scoreVec_length hwlen features
      have hlt2 : iv.1 <
          ((Perceptron.keptList 0 p.true_labels p.labels).map (fun x => x.1)).length := by
        have h1 : q.num_labels =
            ((Perceptron.keptList 0 p.true_labels p.labels).map (fun x => x.1)).length := by
          rw [Perceptron.num_labels, hqlab, hkl]
        omega
      have hmem2 : pr.1 ∈
          (Perceptron.keptList 0 p.true_labels p.labels).map (fun x => x.1) := by
        rw [← hpr2]
        show ((Perceptron.keptList 0 p.true_labels p.labels).map
          (fun x => x.1)).getD iv.1 0 ∈ _
        rw [List.getD_eq_getElem _ 0 hlt2]
        exact List.getElem_mem hlt2
      intro hej
      rw [hej, hmemiff j] at hmem2
      exact Bool.noConfusion (hfalse.symm.trans hmem2.2)

/-- C7: appending a new label between two calls is growth-safe.  After the
grow-check on a consistent state, `true_labels` gains one `False` entry and
every stored feature's three vectors are zero-padded by one entry, leaving
all pre-existing label positions unchanged (the old vectors are strict
prefixes) and `update_count` untouched. -/
theorem C7_growth_safety (p : Perceptron) (s : String) (hc : p.Consistent) :
    ({p with labels := p.labels ++ [s]} : Perceptron).updateNumLabels.labels =
        p.labels ++ [s] ∧
    ({p with labels := p.labels ++ [s]} : Perceptron).updateNumLabels.true_labels =
        p.true_labels ++ [false] ∧
    ∀ f w, findFW p.weights f = some w →
      findFW ({p with labels := p.labels ++ [s]} : Perceptron).updateNumLabels.weights f =
        some ⟨w.weights ++ [0], w.totals ++ [0], w.lastUpdate ++ [0], w.update_count⟩ := by
  obtain ⟨l, w0, fz, li, mu, ui, tl⟩ := p
  have hc1 : tl.length = l.length := hc.1
  have hcond : (Perceptron.true_labels ⟨l ++ [s], w0, fz, li, mu, ui, tl⟩).length <
      Perceptron.num_labels ⟨l ++ [s], w0, fz, li, mu, ui, tl⟩ := by
    show tl.length < (l ++ [s]).length
    rw [List.length_append]
    simp only [List.length_singleton]
    omega
  refine ⟨Perceptron.updateNumLabels_labels _, ?_, ?_⟩
  · show Perceptron.true_labels
      (Perceptron.updateNumLabels ⟨l ++ [s], w0, fz, li, mu, ui, tl⟩) = tl ++ [false]
    rw [Perceptron.updateNumLabels, if_pos hcond]
    show tl ++ List.replicate ((l ++ [s]).length - tl.length) false = tl ++ [false]
    have h1 : (l ++ [s]).length - tl.length = 1 := by
      rw [List.length_append]
      simp only [List.length_singleton]
      omega
    rw [h1]
    rfl
  · intro f w hfind
    have hmem : (f, w) ∈ w0 := findFW_mem hfind
    obtain ⟨hw1, hw2, hw3⟩ := hc.2 (f, w) hmem
    rw [Perceptron.updateNumLabels_findFW, if_pos hcond]
    show (findFW w0 f).map
      (fun fw => fw.resize (Perceptron.num_labels ⟨l ++ [s], w0, fz, li, mu, ui, tl⟩)) = _
    rw [hfind, Option.map_some']
    have hn1 : Perceptron.num_labels ⟨l ++ [s], w0, fz, li, mu, ui, tl⟩ = l.length + 1 := by
      show (l ++ [s]).length = l.length + 1
      rw [List.length_append]
      rfl
    rw [hn1]
    have hww : w.weights.length = l.length := hw1
    have htt : w.totals.length = l.length := hw2
    have hll : w.lastUpdate.length = l.length := hw3
    show (some (⟨List.takeD (l.length + 1) w.weights 0, List.takeD (l.length + 1) w.totals 0,
        List.takeD (l.length + 1) w.lastUpdate 0, w.update_count⟩ : FeatureWeights) :
        Option FeatureWeights) =
      some ⟨w.weights ++ [0], w.totals ++ [0], w.lastUpdate ++ [0], w.update_count⟩
    rw [takeD_append w.weights (l.length + 1) 0 (by omega),
      takeD_append w.totals (l.length + 1) 0 (by omega),
      takeD_append w.lastUpdate (l.length + 1) 0 (by omega),
      hww, htt, hll, Nat.add_sub_cancel_left]
    rfl

/-- C8: on an unfrozen perceptron, `score` excludes the contribution of any
feature whose `update_count` is strictly below `min_update` (removing such a
feature's entries from the input leaves the output unchanged); on a frozen
perceptron no such filter is applied (a present feature with non-zero value
always contributes `value * weights`); in the spec scenario with
`min_update=1`, after the two update calls `score({"f1": 1.0})` returns
`{0: -1.0, 1: 1.0}`. -/
theorem C8_min_update_filter :
    (∀ (p : Perceptron) (f : String) (w : FeatureWeights) (features : List (String × ℚ)),
      p.is_frozen = false → findFW p.weights f = some w →
      w.update_count < p.min_update →
      p.score features = p.score (features.filter (fun fv => fv.1 ≠ f))) ∧
    (∀ (p : Perceptron) (f : String) (w : FeatureWeights) (features : List (String × ℚ))
      (v : ℚ), p.is_frozen = true → findFW p.weights f = some w → v ≠ 0 →
      p.scoreVec (features ++ [(f, v)]) =
        List.zipWith (· + ·) (p.scoreVec features) (w.weights.map (fun x => v * x))) ∧
    Perceptron.c2p2.score [("f1", 1)] = [(0, -1), (1, 1)] := by
  refine ⟨?_, ?_, by with_unfolding_all decide⟩
  · intro p f w features hp hfind hcnt
    exact Perceptron.score_skip_below hp hfind hcnt features
  · intro p f w features v hp hfind hv
    exact Perceptron.scoreVec_append_frozen hp hfind hv features

/-- Witness for C2: the amended statement instantiated on the spec scenario's
second update call. -/
theorem C2_correct_prediction_noop_witness :
    Perceptron.c2p2.countOf "f1" = Perceptron.c2p.countOf "f1" + 2 := by
  obtain ⟨⟨q, hq, hwv, hcv⟩, hs⟩ := C2_correct_prediction_noop Perceptron.c2p [("f1", 1)] 1 1
    (by with_unfolding_all decide) (by with_unfolding_all decide) (by decide)
  have hq2 : Perceptron.c2p.update [("f1", 1)] 1 1 1 = Except.ok Perceptron.c2p2 := by
    with_unfolding_all decide
  rw [hq] at hq2
  injection hq2 with hq2
  rw [← hq2]
  exact hcv ("f1", 1) (by decide) (by decide)

/-- Witness for C3: the first scenario update increments `update_index` from
0 to 1. -/
theorem C3_two_fw_updates_per_feature_witness :
    Perceptron.c2p.update_index = (Perceptron.mk0 ["A", "B"] 1).update_index + 1 := by
  obtain ⟨⟨q, hq, hidx, hfw⟩, hs⟩ := C3_two_fw_updates_per_feature
    (Perceptron.mk0 ["A", "B"] 1) [("f1", 1)] 0 1 1 rfl (by decide) (by decide)
  have hq2 : (Perceptron.mk0 ["A", "B"] 1).update [("f1", 1)] 0 1 1 =
      Except.ok Perceptron.c2p := by
    with_unfolding_all decide
  rw [hq] at hq2
  injection hq2 with hq2
  rw [← hq2]
  exact hidx

/-- Witness for C4: exact round-trip on a reachable unfrozen instance. -/
theorem C4_roundtrip_witness :
    (Perceptron.loadFresh Perceptron.c2p.save).score [("f1", 1)] =
      Perceptron.c2p.score [("f1", 1)] :=
  (C4_roundtrip Perceptron.c2p [("f1", 1)]).2 (by with_unfolding_all decide)

/-- Witness for C5: the kept feature of the finalized scenario model had
enough updates. -/
theorem C5_threshold_pruning_witness :
    ∃ w, ("f1", w) ∈ Perceptron.c2p.weights ∧
      Perceptron.c2p.min_update ≤ w.update_count :=
  (C5_threshold_pruning Perceptron.c2p Perceptron.c4fz true
    (by with_unfolding_all decide) (by with_unfolding_all decide)
    (by with_unfolding_all decide) "f1").mp
    ⟨FeatureWeights.ofWeights [0], by with_unfolding_all decide⟩

/-- Witness for C6: the finalized scenario model keeps only label `B`. -/
theorem C6_label_pruning_witness : Perceptron.c4fz.labels = ["B"] := by
  obtain ⟨li, hli, hpw, hmem, hlab, hsc⟩ := C6_label_pruning Perceptron.c2p Perceptron.c4fz
    true (by with_unfolding_all decide) (by with_unfolding_all decide)
    (by with_unfolding_all decide)
  have h2 : Perceptron.c4fz.label_indices = some [1] := by with_unfolding_all decide
  rw [hli] at h2
  injection h2 with h2
  rw [hlab, h2]
  with_unfolding_all decide

/-- Witness for C7: growing the scenario state by a label `C` appends one
`False` flag. -/
theorem C7_growth_safety_witness :
    ({Perceptron.c2p with labels := Perceptron.c2p.labels ++ ["C"]} :
      Perceptron).updateNumLabels.true_labels = Perceptron.c2p.true_labels ++ [false] :=
  (C7_growth_safety Perceptron.c2p "C" (by with_unfolding_all decide)).2.1

/-- Witness for C8: with `min_update = 3` a feature seen by one update
(`update_count = 2`) contributes nothing to the unfrozen score. -/
theorem C8_min_update_filter_witness :
    Perceptron.c8p.score [("f1", 1)] =
      Perceptron.c8p.score ([("f1", 1)].filter (fun fv => fv.1 ≠ "f1")) :=
  C8_min_update_filter.1 Perceptron.c8p "f1" ⟨[-1, 1], [0, 0], [1, 1], 2⟩ [("f1", 1)]
    (by with_unfolding_all decide) (by with_unfolding_all decide)
    (by with_unfolding_all decide)

/-- Witness for C9: the frozen scenario model rejects `update` and
`finalize`; the unfrozen one does not fail with the frozen-state error. -/
theorem C9_frozen_guard_witness :
    Perceptron.c4fz.update [("f1", 1)] 0 0 1 = Except.error PError.invalidState ∧
    Perceptron.c4fz.finalize true = Except.error PError.invalidState ∧
    Perceptron.c2p.finalize true ≠ Except.error PError.invalidState :=
  ⟨C9_frozen_guard.1 Perceptron.c4fz [("f1", 1)] 0 0 1 (by with_unfolding_all decide),
    C9_frozen_guard.2.1 Perceptron.c4fz true (by with_unfolding_all decide),
    C9_frozen_guard.2.2.2 Perceptron.c2p true (by with_unfolding_all decide)⟩

/-- Witness for C10: `finalize` on a fresh perceptron (no updates at all)
raises the `ValueError`. -/
theorem C10_finalize_empty_value_error_witness :
    (Perceptron.mk0 ["A", "B"] 1).finalize true = Except.error PError.valueError :=
  C10_finalize_empty_value_error (Perceptron.mk0 ["A", "B"] 1) true rfl (by decide)

end Tupa
